import Mathlib

/-! Verification of the Esperanto morphological segmentation engine
(`src/glosilo/eostem.py`, `src/glosilo/consts.py`, `src/glosilo/dictionary.py`).

Words are modelled as `List Char` (Python strings; `len`, slicing and
`startswith`/`endswith` correspond to `List.length`, `take`/`drop` and
`List.isPrefixOf`/`List.isSuffixOf` on code points).  The external root
dictionary (`rad_dictionary.json`, loaded from disk at run time) is a
parameter `rad : List Str`; membership models Python's `in rad_dict`.

The two `while` loops of `_strip_affixes2` and the recursion of
`_try_split_compound` are written with an explicit fuel argument equal to
the length of the word.  Every iteration removes at least one character
(prefixes, suffixes and prepositions are all non-empty, and the compound
recursion descends to `word[i:]` with `i ≥ 2`), so the fuel never runs out
before the loop's own exit condition fires: with fuel `w.length` the
functions compute exactly what the unbounded Python loops compute.
-/

namespace Glosilo

/-- A Python string, as its list of code points. -/
abbrev Str := List Char

/-- Code points of a string literal. -/
def lit (x : String) : Str := x.data

/-! ## consts.py -/

/-- Python `consts.SUFFIXES` keys, in dict insertion order (the order Python's
`for suffix in consts.SUFFIXES` iterates). -/
def SUFFIXES : List Str :=
  [lit "aĉ", lit "ad", lit "aĵ", lit "ar", lit "ebl", lit "ec", lit "eg",
   lit "ej", lit "em", lit "et", lit "ig", lit "iĝ", lit "il", lit "ind",
   lit "ist", lit "uj", lit "ul", lit "it", lit "int", lit "at", lit "ant",
   lit "ot", lit "ont"]

/-- Python `consts.PREFIXES` keys, in dict insertion order. -/
def PREFIXES : List Str := [lit "dis", lit "ek", lit "mal", lit "ne"]

/-- Python `consts.VERB_SUFFIXES`. -/
def VERB_SUFFIXES : List Str :=
  [lit "it", lit "int", lit "at", lit "ant", lit "ot", lit "ont", lit "il",
   lit "ig", lit "iĝ", lit "em", lit "ad", lit "ebl", lit "ind"]

/-- Python `consts.INTERJECTIONS`. -/
def INTERJECTIONS : List Str :=
  [lit "aĉ", lit "adiaŭ", lit "ah", lit "aha", lit "aĥ", lit "aj",
   lit "amen", lit "ba", lit "be", lit "bis", lit "boj", lit "ĉaŭ",
   lit "fek", lit "fi", lit "fik", lit "fikfek", lit "ha", lit "halo",
   lit "haĉum", lit "haha", lit "he", lit "hej", lit "help", lit "hik",
   lit "hm", lit "ho", lit "ve", lit "hola", lit "hu", lit "hura",
   lit "ĥaĥa", lit "jen", lit "klik", lit "kvivit", lit "miaŭ", lit "mjaŭ",
   lit "muu", lit "nu", lit "oho", lit "oj", lit "okej", lit "pa",
   lit "paf", lit "pru", lit "sal", lit "ŝŝ", lit "ups", lit "ŭa",
   lit "ŭaŭ"]

/-- Python `consts.ARTICLES`. -/
def ARTICLES : List Str := [lit "la"]

/-- Python `consts.PREPOSITIONS` (a Python set; only membership is ever used,
apart from the length-sorted scan below). -/
def PREPOSITIONS : List Str :=
  [lit "al", lit "anstataŭ", lit "antaŭ", lit "apud", lit "ĉe",
   lit "ĉirkaŭ", lit "da", lit "de", lit "dum", lit "ekde", lit "ekster",
   lit "eksteren", lit "el", lit "en", lit "for", lit "ĝis", lit "inter",
   lit "kontraŭ", lit "krom", lit "kun", lit "laŭ", lit "malgraŭ",
   lit "ol", lit "per", lit "plus", lit "po", lit "por", lit "post",
   lit "preter", lit "pri", lit "pro", lit "sen", lit "sub", lit "super",
   lit "sur", lit "tra", lit "trans"]

/-- Python `sorted(consts.PREPOSITIONS, key=len, reverse=True)`.  Python's order
among equal-length prepositions is the set's unspecified iteration order,
but a given word has at most one prefix of each length, so the first
match found below is independent of that order. -/
def PREPOSITIONS_SORTED : List Str :=
  [lit "anstataŭ", lit "eksteren", lit "kontraŭ", lit "malgraŭ",
   lit "ĉirkaŭ", lit "ekster", lit "preter", lit "antaŭ", lit "inter",
   lit "super", lit "trans", lit "apud", lit "ekde", lit "krom",
   lit "plus", lit "post", lit "dum", lit "for", lit "ĝis", lit "kun",
   lit "laŭ", lit "per", lit "por", lit "pri", lit "pro", lit "sen",
   lit "sub", lit "sur", lit "tra", lit "al", lit "ĉe", lit "da",
   lit "de", lit "el", lit "en", lit "ol", lit "po"]

/-- Python `consts.NUMBERS`. -/
def NUMBERS : List Str :=
  [lit "nul", lit "unu", lit "du", lit "tri", lit "kvar", lit "kvin",
   lit "ses", lit "sep", lit "ok", lit "naŭ", lit "dek", lit "cent",
   lit "mil"]

/-- Python `consts.CONJUNCTIONS`. -/
def CONJUNCTIONS : List Str :=
  [lit "aŭ", lit "ĉar", lit "do", lit "kaj", lit "ke", lit "nek",
   lit "sed", lit "tamen"]

/-- Python `consts.AU_ADVERBS`. -/
def AU_ADVERBS : List Str :=
  [lit "almenaŭ", lit "ambaŭ", lit "ankaŭ", lit "ankoraŭ", lit "apenaŭ",
   lit "baldaŭ", lit "ĉirkaŭ", lit "hieraŭ", lit "hodiaŭ", lit "kvazaŭ",
   lit "morgaŭ", lit "preskaŭ"]

/-- Python `consts.ADVERBS` (includes `AU_ADVERBS`). -/
def ADVERBS : List Str :=
  [lit "for", lit "jam", lit "ĵus", lit "mem", lit "nun", lit "nur",
   lit "plej", lit "pli", lit "plu", lit "tre", lit "tro", lit "tuj"]
  ++ AU_ADVERBS

/-- Python `consts.CORRELATIVE_PARTICLES`. -/
def CORRELATIVE_PARTICLES : List Str := [lit "ĉi", lit "ajn"]

/-- Python `consts.CORRELATIVES`. -/
def CORRELATIVES : List Str :=
  [lit "kiu", lit "tiu", lit "iu", lit "ĉiu", lit "neniu", lit "kio",
   lit "tio", lit "io", lit "ĉio", lit "nenio", lit "kiom", lit "tiom",
   lit "iom", lit "ĉiom", lit "neniom", lit "kiel", lit "tiel", lit "iel",
   lit "ĉiel", lit "neniel", lit "kiam", lit "tiam", lit "iam",
   lit "ĉiam", lit "neniam", lit "kie", lit "tie", lit "ie", lit "ĉie",
   lit "nenie", lit "kia", lit "tia", lit "ia", lit "ĉia", lit "nenia",
   lit "kial", lit "tial", lit "ial", lit "ĉial", lit "nenial",
   lit "kies", lit "ties", lit "ies", lit "ĉies", lit "nenies"]

/-- Python `consts.PRONOUNS`. -/
def PRONOUNS : List Str :=
  [lit "mi", lit "vi", lit "li", lit "ŝi", lit "ĝi", lit "ni", lit "ili",
   lit "oni", lit "si", lit "ri"]

/-- Python `consts.VORTETOJ`, the union of the closed particle sets (a Python
set; only membership is used, so the concatenation order is irrelevant). -/
def VORTETOJ : List Str :=
  INTERJECTIONS ++ PREPOSITIONS ++ CONJUNCTIONS ++ NUMBERS ++ ADVERBS
  ++ CORRELATIVE_PARTICLES ++ CORRELATIVES ++ ARTICLES ++ PRONOUNS

/-- The predicate of `consts.STRIP_PLURAL_ACC_IMMUNE_WORDS`:
`w.endswith(("n", "j"))`. -/
def endsNJ (w : Str) : Bool :=
  (lit "n").isSuffixOf w || (lit "j").isSuffixOf w

/-- Python `consts.STRIP_PLURAL_ACC_IMMUNE_WORDS`. -/
def STRIP_PLURAL_ACC_IMMUNE_WORDS : List Str := VORTETOJ.filter endsNJ

/-- The predicate of `consts.CORE_IMMUNE_WORDS`:
`w.endswith(("a","e","i","o","u","as","is","os","us"))`. -/
def endsVowelOrTense (w : Str) : Bool :=
  (lit "a").isSuffixOf w || (lit "e").isSuffixOf w || (lit "i").isSuffixOf w
  || (lit "o").isSuffixOf w || (lit "u").isSuffixOf w
  || (lit "as").isSuffixOf w || (lit "is").isSuffixOf w
  || (lit "os").isSuffixOf w || (lit "us").isSuffixOf w

/-- Python `consts.CORE_IMMUNE_WORDS`. -/
def CORE_IMMUNE_WORDS : List Str := VORTETOJ.filter endsVowelOrTense

/-- Python `consts.CORE_IMMUNE_CORES`: the union of the hand-curated exception
word lists (order irrelevant, membership only). -/
def CORE_IMMUNE_CORES : List Str :=
  [lit "taĉ",
   lit "iomgrad", lit "kanad", lit "nead",
   lit "laĵ",
   lit "artefar", lit "bonfar", lit "refar", lit "registrar",
   lit "restar", lit "studjar", lit "urbregistar",
   lit "laŭtleg", lit "releg", lit "voĉleg",
   lit "piedprem",
   lit "almozpet", lit "disket", lit "pardonpet",
   lit "eksig", lit "korlig",
   lit "jarmil", lit "milmil", lit "rebril", lit "trembril", lit "ŝil",
   lit "eksist", lit "krist", lit "kuneksist",
   lit "alkohol-brul", lit "bluokul", lit "bunsen-brul", lit "celtabul",
   lit "duoninsul", lit "ekbrul", lit "friul", lit "kvarangul",
   lit "memortabul", lit "rektangul", lit "respegul", lit "sangomakul",
   lit "sanregul", lit "stratangul", lit "triangul", lit "ŝaktabul",
   lit "amrilat", lit "animstat", lit "bofrat", lit "bonstat",
   lit "gefrat", lit "labormerkat", lit "limdat", lit "manplat",
   lit "membroŝtat", lit "mensostat", lit "mortbat", lit "naskiĝdat",
   lit "neadekvat", lit "pactraktat", lit "piedbat", lit "plenumkomitat",
   lit "prieksperimentat", lit "rebat", lit "sakstrat", lit "sanstat",
   lit "senŝpat", lit "sortobat",
   lit "efrit", lit "hobit", lit "kreit", lit "krucmilit",
   lit "mondmilit", lit "tradicio-lig", lit "ĉefdelegit",
   lit "florpot", lit "piednot",
   lit "adoleskant", lit "eksprezidant", lit "eldonkvant",
   lit "grimpoplant", lit "luigant", lit "popolkant", lit "vicprezidant",
   lit "ĉefleŭtenant",
   lit "montopint", lit "piedpint",
   lit "bankkont", lit "energifont", lit "glacimont", lit "tont",
   lit "disec", lit "diserv", lit "disking", lit "diskodorm",
   lit "diskturn", lit "diskutrond", lit "dispel",
   lit "eklez", lit "eksklusiv", lit "eksmod", lit "ekspanc",
   lit "ekspedic", lit "eksplicit", lit "ekspozic", lit "eksprezident",
   lit "eksterland", lit "eksternorm", lit "eksterordinar",
   lit "eksterter", lit "ekstradic", lit "ekstremdekstr", lit "ekvador",
   lit "nederland", lit "nenio",
   lit "ĉiela", lit "ĉielo"]

/-! ## eostem.py: ending normalization -/

/-- Python `eostem.maybe_strip_plural_acc_ending`. -/
def maybe_strip_plural_acc_ending (w : Str) : Str :=
  if w ∈ STRIP_PLURAL_ACC_IMMUNE_WORDS then w
  else if (lit "jn").isSuffixOf w then w.take (w.length - 2)
  else if (lit "n").isSuffixOf w ∨ (lit "j").isSuffixOf w then
    w.take (w.length - 1)
  else w

/-- Python `eostem.replace_verb_ending`. -/
def replace_verb_ending (w : Str) : Str :=
  if w ∈ CORE_IMMUNE_WORDS then w
  else if (lit "as").isSuffixOf w ∨ (lit "is").isSuffixOf w
       ∨ (lit "os").isSuffixOf w ∨ (lit "us").isSuffixOf w then
    w.take (w.length - 2) ++ lit "i"
  else if (lit "u").isSuffixOf w then w.take (w.length - 1) ++ lit "i"
  else w

/-- Python `eostem._split_ending` (without the debug printing). -/
def split_ending (w : Str) : Str × Str :=
  match w.getLast? with
  | some c =>
    if 2 ≤ w.length ∧ c ∈ ['a', 'e', 'i', 'o', 'u'] ∧ w ∉ VORTETOJ then
      (w.dropLast, [c])
    else (w, [])
  | none => (w, [])

/-! ## eostem.py: affix stripping loops (steps 2 and 3 of `_strip_affixes2`)

The Python `while` loops repeatedly strip the first matching prefix from
the front / first matching suffix from the back.  Every match removes at
least two characters, so fuel `w.length` is never exhausted before the
loop's exit condition (no match) fires; at fuel 0 the word is empty and no
affix matches it anyway, so the fuel variant agrees with the loop. -/

/-- One pass of step 2 of `_strip_affixes2` with explicit fuel: returns
`(remainder, stripped prefix list in strip order)`. -/
def stripPreAux : Nat → Str → Str × List Str
  | 0, w => (w, [])
  | n + 1, w =>
    match PREFIXES.find? (fun p => p.isPrefixOf w) with
    | none => (w, [])
    | some p =>
      let out := stripPreAux n (w.drop p.length)
      (out.1, p :: out.2)

/-- Step 3 of `_strip_affixes2` with explicit fuel: returns
`(remainder, stripped suffix list)`; Python inserts each stripped suffix
at position 0, so the list is in left-to-right textual order. -/
def stripSufAux : Nat → Str → Str × List Str
  | 0, w => (w, [])
  | n + 1, w =>
    match SUFFIXES.find? (fun s => s.isSuffixOf w) with
    | none => (w, [])
    | some s =>
      let out := stripSufAux n (w.take (w.length - s.length))
      (out.1, out.2 ++ [s])

/-! ## eostem.py: `_try_split_compound` -/

/-- Python `all_affixes = set(PREFIXES) | set(SUFFIXES) | set(PREPOSITIONS)`. -/
def allAffixes : List Str := PREFIXES ++ SUFFIXES ++ PREPOSITIONS

/-- A compound part is usable when it is in `rad_dict` and is not an
affix (the two conditions tested together at each split point). -/
def okPart (rad : List Str) (x : Str) : Bool :=
  x ∈ rad ∧ x ∉ allAffixes

/-- Python `left_part and left_part[-1] in 'aeio'`: the left part is non-empty
and ends in a linking vowel. -/
def lastIsVowel (l : Str) : Bool :=
  match l.getLast? with
  | some c => c ∈ ['a', 'e', 'i', 'o']
  | none => false

/-- The first half of the loop body: try the split of `w` at `i` without
a linking vowel, keeping it only when its score strictly exceeds the best
score so far. -/
def noVowelUpd (rad : List Str) (w : Str) (st : Option (List Str) × Nat)
    (i : Nat) : Option (List Str) × Nat :=
  if okPart rad (w.take i) ∧ okPart rad (w.drop i)
      ∧ st.2 < (w.take i).length + (w.drop i).length then
    (some [w.take i, w.drop i], (w.take i).length + (w.drop i).length)
  else st

/-- The body of the `for i in range(2, len(word) - 1)` loop: the
no-linking-vowel attempt followed by the linking-vowel attempt (the left
part without its final vowel, the vowel as its own one-character part). -/
def splitStep (rad : List Str) (w : Str) (st : Option (List Str) × Nat)
    (i : Nat) : Option (List Str) × Nat :=
  if lastIsVowel (w.take i) ∧ okPart rad ((w.take i).dropLast)
      ∧ okPart rad (w.drop i)
      ∧ (noVowelUpd rad w st i).2
          < ((w.take i).dropLast).length + (w.drop i).length then
    (some [(w.take i).dropLast, (w.take i).getLast?.toList, w.drop i],
     ((w.take i).dropLast).length + (w.drop i).length)
  else noVowelUpd rad w st i

/-- The split-point loop of `_try_split_compound`: fold `splitStep` over
`range(2, len(word) - 1)`, starting from `best_split = None`,
`best_score = 0`. -/
def splitScan (rad : List Str) (w : Str) : Option (List Str) × Nat :=
  (List.range' 2 (w.length - 3)).foldl (splitStep rad w) (none, 0)

/-- Python `sum(len(p) for p in parts if len(p) > 1)`: total root length of a
split, linking vowels (and length-1 parts generally) excluded. -/
def partsScore (parts : List Str) : Nat :=
  ((parts.filter (fun p => 1 < p.length)).map List.length).sum

/-- The adoption test of the recursive refinement: replace the
right-hand part `r` of a split (preceded by `front`) with the parts of
its own sub-split only when the sub-split's total root length strictly
exceeds `len(r)`. -/
def refineWith (front : List Str) (r : Str) (sub : Option (List Str)) :
    Option (List Str) :=
  match sub with
  | some ss =>
    if r.length < partsScore ss then some (front ++ ss)
    else some (front ++ [r])
  | none => some (front ++ [r])

/-- The recursive-refinement block of `_try_split_compound`: a 2-part or
3-part best split has its right-hand part recursively re-split. -/
def refineSplit (rec : Str → Option (List Str)) :
    Option (List Str) → Option (List Str)
  | some [l, r] => refineWith [l] r (rec r)
  | some [l, v, r] => refineWith [l, v] r (rec r)
  | other => other

/-- Python `_try_split_compound` with explicit fuel for its recursion on the
right-hand part (that part is `word[i:]` with `i ≥ 2`, so fuel
`word.length` is never exhausted; at fuel 0 the word is shorter than 4
characters and the function returns `None` either way). -/
def trySplitAux (rad : List Str) : Nat → Str → Option (List Str)
  | 0, _ => none
  | n + 1, w =>
    if w.length < 4 then none
    else refineSplit (trySplitAux rad n) (splitScan rad w).1

/-- Python `eostem._try_split_compound`. -/
def try_split_compound (rad : List Str) (w : Str) : Option (List Str) :=
  trySplitAux rad w.length w

/-! ## eostem.py: `_strip_affixes2` -/

/-- A candidate deconstruction, one element of the Python
`deconstructions` list: `(stripped_prefixes, core, stripped_suffixes,
root_length, score_penalty)`. -/
structure Cand where
  pre : List Str
  core : List Str
  suf : List Str
  rootLen : Nat
  pen : Int
deriving DecidableEq

/-- Step 1 of `_strip_affixes2`: the longest preposition that is a prefix
of the word, if any. -/
def prepOf (w : Str) : Option Str :=
  PREPOSITIONS_SORTED.find? (fun p => p.isPrefixOf w)

/-- Python `[preposition]` or `[]`. -/
def prepL (po : Option Str) : List Str :=
  match po with
  | some p => [p]
  | none => []

/-- The word after the provisional preposition removal. -/
def afterPrep (w : Str) : Str :=
  match prepOf w with
  | some p => w.drop p.length
  | none => w

/-- The stripped prefix list `temp_prefixes`. -/
def tempPre (w : Str) : List Str := (stripPreAux (afterPrep w).length (afterPrep w)).2

/-- The remainder after step 2. -/
def remMid (w : Str) : Str := (stripPreAux (afterPrep w).length (afterPrep w)).1

/-- The stripped suffix list `temp_suffixes`. -/
def tempSuf (w : Str) : List Str := (stripSufAux (remMid w).length (remMid w)).2

/-- The remainder after maximum stripping. -/
def remFinal (w : Str) : Str := (stripSufAux (remMid w).length (remMid w)).1

/-- The reconstructed root for the giveback combination `(k, m)`:
the last `k` stripped prefixes, then the remainder, then the first `m`
stripped suffixes (`temp_prefixes[-k:] + remainder + temp_suffixes[:m]`,
joined). -/
def recRoot (tp : List Str) (rem : Str) (ts : List Str) (k m : Nat) : Str :=
  (tp.drop (tp.length - k)).flatten ++ rem ++ (ts.take m).flatten

/-- The inner branch of the `ne` special case: −1000 when the stripped
suffix list is exactly one of `ig` or `ul`, +1000 otherwise. -/
def nePenalty (ss : List Str) : Int :=
  match ss with
  | [x] => if x = lit "ig" ∨ x = lit "ul" then -1000 else 1000
  | _ => 1000

/-- The special-case `score_penalty` of `_strip_affixes2`: the negation
root `ne` is boosted (−1000) when its only remaining suffix is `ig` or
`ul` and penalized (+1000) otherwise; a core `ig` or `ul` with `ne` among
the stripped prefixes is penalized (+1000; in the source this second rule
overwrites the first, which can never have fired for such a root). -/
def specialPenalty (root : Str) (sp ss : List Str) : Int :=
  if (root = lit "ig" ∨ root = lit "ul") ∧ lit "ne" ∈ sp then 1000
  else if root = lit "ne" ∧ ss ≠ [] then nePenalty ss
  else 0

/-- The candidate produced by the giveback combination `(k, m)`, when its
reconstructed root is in `rad_dict` (`if reconstructed_root in rad_dict`
is the only acceptance test). -/
def mkCand (rad : List Str) (po : Option Str) (tp : List Str) (rem : Str)
    (ts : List Str) (k m : Nat) : Option Cand :=
  if recRoot tp rem ts k m ∈ rad then
    some ⟨prepL po ++ tp.take (tp.length - k), [recRoot tp rem ts k m],
      ts.drop m, (recRoot tp rem ts k m).length,
      specialPenalty (recRoot tp rem ts k m)
        (prepL po ++ tp.take (tp.length - k)) (ts.drop m)⟩
  else none

/-- Steps 4 and 5 of `_strip_affixes2`: all validated giveback
combinations, in loop order (`k` outer ascending, `m` inner ascending). -/
def affixCands (rad : List Str) (po : Option Str) (tp : List Str)
    (rem : Str) (ts : List Str) : List Cand :=
  (List.range (tp.length + 1)).flatMap (fun k =>
    (List.range (ts.length + 1)).filterMap (fun m =>
      mkCand rad po tp rem ts k m))

/-- The full Python `deconstructions` list: affix-reconstruction
candidates, then the compound candidate on the post-stripping remainder
(penalty 10), then the compound candidate on the original stem
(penalty 5). -/
def deconstructions (rad : List Str) (w : Str) : List Cand :=
  affixCands rad (prepOf w) (tempPre w) (remFinal w) (tempSuf w)
  ++ (match try_split_compound rad (remFinal w) with
      | some parts =>
        [⟨prepL (prepOf w) ++ tempPre w, parts, tempSuf w,
          partsScore parts, 10⟩]
      | none => [])
  ++ (match try_split_compound rad w with
      | some parts => [⟨[], parts, [], partsScore parts, 5⟩]
      | none => [])

/-- The Python sort key `(-x[4], x[3], len(x[0]) + len(x[2]))`. -/
def candKey (c : Cand) : Int × Int × Int :=
  (-c.pen, (c.rootLen : Int), ((c.pre.length + c.suf.length : Nat) : Int))

/-- Strict lexicographic comparison of sort keys. -/
def keyGt (a b : Int × Int × Int) : Bool :=
  b.1 < a.1 ∨ (a.1 = b.1 ∧ (b.2.1 < a.2.1 ∨ (a.2.1 = b.2.1 ∧ b.2.2 < a.2.2)))

/-- Python `deconstructions.sort(key=..., reverse=True)` followed by taking the
first element: Python's sort is stable, so the head of the reverse-sorted
list is the earliest-generated candidate with the lexicographically
greatest key, which this fold computes directly. -/
def pickBest (l : List Cand) : Option Cand :=
  match l with
  | [] => none
  | h :: t =>
    some (t.foldl (fun b c => if keyGt (candKey c) (candKey b) then c else b) h)

/-- Python `eostem._strip_affixes2`: returns `(core, prefixes, suffixes)`. -/
def strip_affixes2 (rad : List Str) (w : Str) : List Str × List Str × List Str :=
  match pickBest (deconstructions rad w) with
  | some b => (b.core, b.pre, b.suf)
  | none => ([remFinal w], prepL (prepOf w) ++ tempPre w, tempSuf w)

/-! ## eostem.py: `core_word` -/

/-- Python `structs.CoredWord`, restricted to the morphological fields.  The
translation fields (`definitions`, `preferred_definition`,
`core_definition`) and `parts` are always `[], "", "", []` as produced by
`core_word` and are not touched by any claim, so they are omitted. -/
structure CoredWord where
  orig_word : Str
  prefixes : List Str
  core : List Str
  suffixes : List Str
  preferred_ending : Str
deriving DecidableEq

/-- Lowercasing over the language's alphabet (Python `str.lower`
restricted to ASCII letters and the six circumflex/breve letters). -/
def toLowerEo (c : Char) : Char :=
  if c = 'Ĉ' then 'ĉ' else if c = 'Ĝ' then 'ĝ' else if c = 'Ĥ' then 'ĥ'
  else if c = 'Ĵ' then 'ĵ' else if c = 'Ŝ' then 'ŝ' else if c = 'Ŭ' then 'ŭ'
  else c.toLower

/-- Python `word.lower()`. -/
def lowerStr (w : Str) : Str := w.map toLowerEo

/-- The Python truthiness test `not core or (len(core) == 1 and not
core[0])`. -/
def coreEmpty (core : List Str) : Bool :=
  match core with
  | [] => true
  | [c] => c.isEmpty
  | _ => false

/-- The empty-core recovery at the end of `core_word`: promote the first
remaining suffix (`suffixes.pop(0)`), else the last remaining prefix
(`prefixes.pop()`), into the core. -/
def promote_core (prefixes0 core0 suffixes0 : List Str) :
    List Str × List Str × List Str :=
  if coreEmpty core0 then
    match suffixes0 with
    | s :: rest => (prefixes0, [s], rest)
    | [] =>
      match prefixes0.getLast? with
      | some p => (prefixes0.dropLast, [p], suffixes0)
      | none => (prefixes0, core0, suffixes0)
  else (prefixes0, core0, suffixes0)

/-- The ending normalization stage of `core_word`: lowercase, strip
plural/accusative markers, rewrite verb endings, split off the final
vowel.  Returns `(stem, orig_ending)`. -/
def normStem (word : Str) : Str × Str :=
  split_ending (replace_verb_ending (maybe_strip_plural_acc_ending
    (lowerStr word)))

/-- Python `if suffixes and suffixes[-1] in consts.VERB_SUFFIXES: orig_ending = "i"`. -/
def endingAfterVerbSuffix (suffixes0 : List Str) (e : Str) : Str :=
  match suffixes0.getLast? with
  | some s => if s ∈ VERB_SUFFIXES then lit "i" else e
  | none => e

/-- Python `if len(core) == 1 and core[0] in consts.VERB_SUFFIXES: orig_ending = "i"`. -/
def endingAfterVerbCore (core0 : List Str) (e : Str) : Str :=
  match core0 with
  | [c] => if c ∈ VERB_SUFFIXES then lit "i" else e
  | _ => e

/-- Python `eostem.core_word` (without the debug printing): normalize the
ending, run `_strip_affixes2` on the stem, apply the two verb-suffix
ending overrides (on the pre-promotion suffix list and core), then the
empty-core promotion. -/
def core_word (rad : List Str) (word : Str) : CoredWord :=
  let sa := strip_affixes2 rad (normStem word).1
  let e2 := endingAfterVerbCore sa.1
    (endingAfterVerbSuffix sa.2.2 (normStem word).2)
  let pcs := promote_core sa.2.1 sa.1 sa.2.2
  ⟨word, pcs.1, pcs.2.1, pcs.2.2, e2⟩

/-! ## dictionary.py: the entry guard of `Dictionary.get_gloss` -/

/-- What the first lines of `get_gloss` do with a token before any
analysis. -/
inductive GlossOutcome where
  | raised
  | passThrough (w : Str)
  | analyzed (w : Str)
deriving DecidableEq

/-- Python `str.isalpha` restricted to the language's alphabet (ASCII
letters plus the six circumflex/breve letters, both cases). -/
def pyIsAlpha (c : Char) : Bool :=
  ('a' ≤ c ∧ c ≤ 'z') ∨ ('A' ≤ c ∧ c ≤ 'Z')
  ∨ c ∈ ['ĉ', 'ĝ', 'ĥ', 'ĵ', 'ŝ', 'ŭ', 'Ĉ', 'Ĝ', 'Ĥ', 'Ĵ', 'Ŝ', 'Ŭ']

/-- The entry guard of `Dictionary.get_gloss`: it evaluates
`word[0].isalpha()` first, which on the empty string raises an uncaught
`IndexError` (modelled as `raised`); a token whose first character is not
a letter is returned as the pass-through
`CoredWord(word, [], "", [], "", [], "", "")` (modelled as
`passThrough`); otherwise analysis proceeds (modelled as `analyzed`). -/
def get_gloss_entry (word : Str) : GlossOutcome :=
  match word with
  | [] => GlossOutcome.raised
  | c :: _ =>
    if pyIsAlpha c then GlossOutcome.analyzed word
    else GlossOutcome.passThrough word

/-! ## Order lemmas for the sort key -/

theorem keyGt_iff (a b : Int × Int × Int) :
    keyGt a b = true ↔
      b.1 < a.1 ∨ (a.1 = b.1 ∧ (b.2.1 < a.2.1 ∨ (a.2.1 = b.2.1 ∧ b.2.2 < a.2.2))) := by
  simp [keyGt]

theorem keyGt_irrefl (a : Int × Int × Int) : keyGt a a = false := by
  simp only [Bool.eq_false_iff, ne_eq, keyGt_iff]
  omega

theorem keyGt_trans {a b c : Int × Int × Int} (h1 : keyGt a b = true)
    (h2 : keyGt b c = true) : keyGt a c = true := by
  rw [keyGt_iff] at h1 h2 ⊢
  omega

theorem keyGt_false_trans {a b c : Int × Int × Int} (h1 : keyGt a b = false)
    (h2 : keyGt b c = false) : keyGt a c = false := by
  simp only [Bool.eq_false_iff, ne_eq, keyGt_iff] at h1 h2 ⊢
  omega

theorem keyGt_asymm {a b : Int × Int × Int} (h : keyGt a b = true) :
    keyGt b a = false := by
  rw [keyGt_iff] at h
  simp only [Bool.eq_false_iff, ne_eq, keyGt_iff]
  omega

/-! ## `pickBest` returns a maximal candidate -/

theorem pickFold_mem : ∀ (t : List Cand) (h : Cand),
    t.foldl (fun b c => if keyGt (candKey c) (candKey b) then c else b) h ∈ h :: t := by
  intro t
  induction t with
  | nil => intro h; simp
  | cons c0 t' ih =>
    intro h
    simp only [List.foldl_cons]
    by_cases hgt : keyGt (candKey c0) (candKey h) = true
    · rw [if_pos hgt]
      rcases List.mem_cons.mp (ih c0) with h1 | h1
      · rw [h1]; exact List.mem_cons.mpr (Or.inr (List.mem_cons.mpr (Or.inl rfl)))
      · exact List.mem_cons.mpr (Or.inr (List.mem_cons.mpr (Or.inr h1)))
    · rw [if_neg hgt]
      rcases List.mem_cons.mp (ih h) with h1 | h1
      · rw [h1]; exact List.mem_cons.mpr (Or.inl rfl)
      · exact List.mem_cons.mpr (Or.inr (List.mem_cons.mpr (Or.inr h1)))

theorem pickFold_max : ∀ (t : List Cand) (h : Cand), ∀ c ∈ h :: t,
    keyGt (candKey c)
      (candKey (t.foldl (fun b c => if keyGt (candKey c) (candKey b) then c else b) h))
      = false := by
  intro t
  induction t with
  | nil =>
    intro h c hc
    rcases List.mem_cons.mp hc with h1 | h1
    · rw [h1]; exact keyGt_irrefl _
    · simp at h1
  | cons c0 t' ih =>
    intro h c hc
    simp only [List.foldl_cons]
    by_cases hgt : keyGt (candKey c0) (candKey h) = true
    · rw [if_pos hgt]
      rcases List.mem_cons.mp hc with h1 | h1
      · -- c = h, which lost to c0; the fold result dominates c0
        rw [h1]
        have hc0 := ih c0 c0 (List.mem_cons.mpr (Or.inl rfl))
        rw [Bool.eq_false_iff]
        intro habs
        exact (Bool.eq_false_iff.mp hc0) (keyGt_trans hgt habs)
      · exact ih c0 c h1
    · rw [if_neg hgt]
      rcases List.mem_cons.mp hc with h1 | h1
      · rw [h1]; exact ih h h (List.mem_cons.mpr (Or.inl rfl))
      · rcases List.mem_cons.mp h1 with h2 | h2
        · -- c = c0, which lost to h; the fold result dominates h
          rw [h2]
          have hh := ih h h (List.mem_cons.mpr (Or.inl rfl))
          exact keyGt_false_trans (Bool.eq_false_iff.mpr hgt) hh
        · exact ih h c (List.mem_cons.mpr (Or.inr h2))

theorem pickBest_mem {l : List Cand} {b : Cand} (h : pickBest l = some b) :
    b ∈ l := by
  match l with
  | [] => simp [pickBest] at h
  | h0 :: t =>
    simp only [pickBest, Option.some.injEq] at h
    subst h
    exact pickFold_mem t h0

theorem pickBest_max {l : List Cand} {b : Cand} (h : pickBest l = some b) :
    ∀ c ∈ l, keyGt (candKey c) (candKey b) = false := by
  match l with
  | [] => simp [pickBest] at h
  | h0 :: t =>
    simp only [pickBest, Option.some.injEq] at h
    subst h
    exact pickFold_max t h0

theorem pickBest_isSome {l : List Cand} (h : l ≠ []) :
    ∃ b, pickBest l = some b := by
  match l with
  | [] => exact absurd rfl h
  | h0 :: t => exact ⟨_, rfl⟩

/-! ## Concatenation through the stripping loops -/

theorem prefixes_nonnil : ∀ p ∈ PREFIXES, p ≠ [] := by decide

theorem suffixes_nonnil : ∀ s ∈ SUFFIXES, s ≠ [] := by decide

theorem stripPreAux_concat : ∀ (n : Nat) (w : Str),
    (stripPreAux n w).2.flatten ++ (stripPreAux n w).1 = w := by
  intro n
  induction n with
  | zero => intro w; simp [stripPreAux]
  | succ n ih =>
    intro w
    rcases hf : PREFIXES.find? (fun p => p.isPrefixOf w) with _ | p
    · simp [stripPreAux, hf]
    · have hpre : p <+: w :=
        List.isPrefixOf_iff_prefix.mp (by simpa using List.find?_some hf)
      rcases hpre with ⟨t, ht⟩
      have hdrop : w.drop p.length = t := by
        rw [← ht]; exact List.drop_left p t
      simp only [stripPreAux, hf]
      simp only [List.flatten_cons, List.append_assoc]
      rw [hdrop, ih t]
      exact ht

theorem stripSufAux_concat : ∀ (n : Nat) (w : Str),
    (stripSufAux n w).1 ++ (stripSufAux n w).2.flatten = w := by
  intro n
  induction n with
  | zero => intro w; simp [stripSufAux]
  | succ n ih =>
    intro w
    rcases hf : SUFFIXES.find? (fun s => s.isSuffixOf w) with _ | sfx
    · simp [stripSufAux, hf]
    · have hsuf : sfx <:+ w :=
        List.isSuffixOf_iff_suffix.mp (by simpa using List.find?_some hf)
      rcases hsuf with ⟨t, ht⟩
      have htake : w.take (w.length - sfx.length) = t := by
        rw [← ht, List.length_append, Nat.add_sub_cancel]
        exact List.take_left t sfx
      simp only [stripSufAux, hf]
      simp only [List.flatten_append, List.flatten_cons, List.flatten_nil,
        List.append_nil]
      rw [htake, ← List.append_assoc, ih t]
      exact ht

/-- Step 1: the stem is the found preposition followed by the rest. -/
theorem afterPrep_concat (w : Str) :
    (prepL (prepOf w)).flatten ++ afterPrep w = w := by
  rcases hf : prepOf w with _ | p
  · simp [afterPrep, prepL, hf]
  · have hpre : p <+: w := by
      have := List.find?_some hf
      exact List.isPrefixOf_iff_prefix.mp (by simpa using this)
    rcases hpre with ⟨t, ht⟩
    have hdrop : w.drop p.length = t := by
      rw [← ht]; exact List.drop_left p t
    simp only [afterPrep, prepL, hf, List.flatten_cons, List.flatten_nil,
      List.append_nil]
    rw [hdrop]
    exact ht

theorem tempPre_concat (w : Str) :
    (tempPre w).flatten ++ remMid w = afterPrep w :=
  stripPreAux_concat (afterPrep w).length (afterPrep w)

theorem tempSuf_concat (w : Str) :
    remFinal w ++ (tempSuf w).flatten = remMid w :=
  stripSufAux_concat (remMid w).length (remMid w)

/-- The maximum-stripping decomposition of the stem. -/
theorem maxStrip_concat (w : Str) :
    (prepL (prepOf w)).flatten
      ++ ((tempPre w).flatten ++ (remFinal w ++ (tempSuf w).flatten)) = w := by
  rw [tempSuf_concat, tempPre_concat, afterPrep_concat]

/-! ## The compound splitter: valid splits and the loop invariant -/

/-- The two kinds of split tested at split point `i`: without a linking
vowel (both halves usable parts) and with one (the left half ends in a
linking vowel and its front is a usable part). -/
def PartsAt (rad : List Str) (w : Str) (i : Nat) (ps : List Str) : Prop :=
  (okPart rad (w.take i) = true ∧ okPart rad (w.drop i) = true
    ∧ ps = [w.take i, w.drop i])
  ∨ (∃ c, (w.take i).getLast? = some c ∧ c ∈ ['a', 'e', 'i', 'o']
      ∧ okPart rad ((w.take i).dropLast) = true
      ∧ okPart rad (w.drop i) = true
      ∧ ps = [(w.take i).dropLast, [c], w.drop i])

/-- The score the loop assigns to a split: total root length, the
linking vowel excluded. -/
def scoreOf (ps : List Str) : Nat :=
  match ps with
  | [l, r] => l.length + r.length
  | [l, _, r] => l.length + r.length
  | _ => 0

/-- Invariant of the `for i in range(2, len(word) - 1)` loop: the state
is still the initial `(None, 0)` or holds a valid split of maximal score
among the split points seen so far. -/
def ScanInv (rad : List Str) (w : Str) (seen : List Nat)
    (st : Option (List Str) × Nat) : Prop :=
  (st = (none, 0)
    ∨ ∃ ps, st.1 = some ps ∧ scoreOf ps = st.2 ∧ ∃ i ∈ seen, PartsAt rad w i ps)
  ∧ ∀ i ∈ seen, ∀ q, PartsAt rad w i q → scoreOf q ≤ st.2

theorem lastIsVowel_iff (l : Str) :
    lastIsVowel l = true ↔
      ∃ c, l.getLast? = some c ∧ c ∈ ['a', 'e', 'i', 'o'] := by
  rcases h : l.getLast? with _ | c <;> simp [lastIsVowel, h]

theorem noVowelUpd_mono (rad : List Str) (w : Str)
    (st : Option (List Str) × Nat) (i : Nat) :
    st.2 ≤ (noVowelUpd rad w st i).2 := by
  unfold noVowelUpd
  split
  · next hc => exact Nat.le_of_lt hc.2.2
  · exact Nat.le_refl _

theorem splitStep_inv {rad : List Str} {w : Str} {seen : List Nat}
    {st : Option (List Str) × Nat} (i : Nat) (h : ScanInv rad w seen st) :
    ScanInv rad w (seen ++ [i]) (splitStep rad w st i) := by
  obtain ⟨hex, hmax⟩ := h
  have hst1_mono : st.2 ≤ (noVowelUpd rad w st i).2 := noVowelUpd_mono rad w st i
  have hst1_ex : noVowelUpd rad w st i = (none, 0)
      ∨ ∃ ps, (noVowelUpd rad w st i).1 = some ps
          ∧ scoreOf ps = (noVowelUpd rad w st i).2
          ∧ ∃ j ∈ seen ++ [i], PartsAt rad w j ps := by
    unfold noVowelUpd
    split
    · next hc =>
      exact Or.inr ⟨[w.take i, w.drop i], rfl, by simp [scoreOf], i, by simp,
        Or.inl ⟨hc.1, hc.2.1, rfl⟩⟩
    · rcases hex with h0 | ⟨ps, h1, h2, j, hj, h3⟩
      · exact Or.inl h0
      · exact Or.inr ⟨ps, h1, h2, j, List.mem_append_left _ hj, h3⟩
  have hst1_noV : ∀ q, (okPart rad (w.take i) = true
      ∧ okPart rad (w.drop i) = true ∧ q = [w.take i, w.drop i]) →
      scoreOf q ≤ (noVowelUpd rad w st i).2 := by
    intro q ⟨hql, hqr, hq⟩
    rw [hq]
    simp only [scoreOf]
    unfold noVowelUpd
    split
    · exact Nat.le_refl _
    · next hc =>
      have hn : ¬ st.2 < (w.take i).length + (w.drop i).length :=
        fun h3 => hc ⟨hql, hqr, h3⟩
      omega
  have hgoal : ∀ st2 : Option (List Str) × Nat,
      (noVowelUpd rad w st i).2 ≤ st2.2 →
      (st2 = (none, 0)
        ∨ ∃ ps, st2.1 = some ps ∧ scoreOf ps = st2.2
            ∧ ∃ j ∈ seen ++ [i], PartsAt rad w j ps) →
      (∀ q, (∃ c, (w.take i).getLast? = some c ∧ c ∈ ['a', 'e', 'i', 'o']
          ∧ okPart rad ((w.take i).dropLast) = true
          ∧ okPart rad (w.drop i) = true
          ∧ q = [(w.take i).dropLast, [c], w.drop i]) →
        scoreOf q ≤ st2.2) →
      ScanInv rad w (seen ++ [i]) st2 := by
    intro st2 hmono hex2 hvow
    refine ⟨hex2, ?_⟩
    intro j hj q hq
    rcases List.mem_append.mp hj with hj1 | hj1
    · exact Nat.le_trans (hmax j hj1 q hq) (Nat.le_trans hst1_mono hmono)
    · have hji : j = i := by simpa using hj1
      rw [hji] at hq
      rcases hq with h1 | h2
      · exact Nat.le_trans (hst1_noV q h1) hmono
      · exact hvow q h2
  rw [splitStep]
  split
  · next hc =>
    obtain ⟨hlv, hql, hqr, hsc⟩ := hc
    obtain ⟨c, hlast, hcv⟩ := (lastIsVowel_iff _).mp hlv
    refine hgoal _ (Nat.le_of_lt hsc) ?_ ?_
    · refine Or.inr ⟨_, rfl, ?_, i, by simp,
        Or.inr ⟨c, hlast, hcv, hql, hqr, ?_⟩⟩
      · simp [scoreOf]
      · rw [hlast]; rfl
    · intro q ⟨c', hc', _, _, _, hq⟩
      rw [hq]
      simp [scoreOf]
  · next hc =>
    refine hgoal _ (Nat.le_refl _) hst1_ex ?_
    intro q ⟨c', hc', hcv', hql, hqr, hq⟩
    have hlv : lastIsVowel (w.take i) = true :=
      (lastIsVowel_iff _).mpr ⟨c', hc', hcv'⟩
    have hn : ¬ (noVowelUpd rad w st i).2
        < ((w.take i).dropLast).length + (w.drop i).length :=
      fun h3 => hc ⟨hlv, hql, hqr, h3⟩
    rw [hq]
    simp only [scoreOf]
    omega

theorem scanInv_fold (rad : List Str) (w : Str) :
    ∀ (is seen : List Nat) (st : Option (List Str) × Nat),
      ScanInv rad w seen st →
      ScanInv rad w (seen ++ is) (is.foldl (splitStep rad w) st) := by
  intro is
  induction is with
  | nil => intro seen st h; simpa using h
  | cons i is' ih =>
    intro seen st h
    have h2 := ih (seen ++ [i]) _ (splitStep_inv i h)
    simpa using h2

theorem splitScan_inv (rad : List Str) (w : Str) :
    ScanInv rad w (List.range' 2 (w.length - 3)) (splitScan rad w) := by
  have h0 : ScanInv rad w [] (none, 0) := by
    refine ⟨Or.inl rfl, ?_⟩
    intro i hi
    simp at hi
  have := scanInv_fold rad w (List.range' 2 (w.length - 3)) [] (none, 0) h0
  simpa [splitScan] using this

theorem partsAt_pos {rad : List Str} {w : Str} {i : Nat} {q : List Str}
    (h2 : 2 ≤ i) (hle : i + 2 ≤ w.length) (h : PartsAt rad w i q) :
    1 ≤ scoreOf q := by
  have hdrop : (w.drop i).length = w.length - i := List.length_drop i w
  rcases h with ⟨_, _, hq⟩ | ⟨c, _, _, _, _, hq⟩
  · rw [hq]; simp only [scoreOf]; omega
  · rw [hq]; simp only [scoreOf]; omega

theorem partsAt_flatten {rad : List Str} {w : Str} {i : Nat} {q : List Str}
    (h : PartsAt rad w i q) : q.flatten = w := by
  rcases h with ⟨_, _, hq⟩ | ⟨c, hlast, _, _, _, hq⟩
  · rw [hq]
    simp [List.take_append_drop]
  · rw [hq]
    simp only [List.flatten_cons, List.flatten_nil, List.append_nil]
    have hdl : (w.take i).dropLast ++ [c] = w.take i :=
      List.dropLast_append_getLast? c hlast
    rw [← List.append_assoc, hdl, List.take_append_drop]

theorem partsScore_le (ps : List Str) : partsScore ps ≤ ps.flatten.length := by
  induction ps with
  | nil => simp [partsScore]
  | cons p ps ih =>
    unfold partsScore at ih ⊢
    simp only [List.filter_cons]
    by_cases hp : 1 < p.length
    · rw [if_pos (decide_eq_true hp)]
      simp only [List.map_cons, List.sum_cons, List.flatten_cons,
        List.length_append]
      omega
    · rw [if_neg (by simpa using hp)]
      simp only [List.flatten_cons, List.length_append]
      omega

theorem trySplitAux_spec (rad : List Str) : ∀ (n : Nat) (w : Str) (ps : List Str),
    trySplitAux rad n w = some ps →
    (splitScan rad w).1 = some ps
      ∧ ∃ i, 2 ≤ i ∧ i + 2 ≤ w.length ∧ PartsAt rad w i ps := by
  intro n
  induction n with
  | zero => intro w ps h; simp [trySplitAux] at h
  | succ n ih =>
    intro w ps h
    rw [trySplitAux] at h
    by_cases hlen : w.length < 4
    · rw [if_pos hlen] at h
      exact absurd h (by simp)
    · rw [if_neg hlen] at h
      obtain ⟨hex, hmax⟩ := splitScan_inv rad w
      rcases hex with h0 | ⟨parts, h1, h2, j, hj, h3⟩
      · rw [show (splitScan rad w).1 = none from by rw [h0]] at h
        simp [refineSplit] at h
      · have hjj := List.mem_range'_1.mp hj
        have hj3 : j + 2 ≤ w.length := by omega
        rcases h3 with ⟨hl, hr, hq⟩ | ⟨c, hlast, hcv, hl0, hr, hq⟩
        · rw [h1, hq] at h
          simp only [refineSplit] at h
          rcases hrec : trySplitAux rad n (w.drop j) with _ | ss
          · rw [hrec] at h
            simp only [refineWith, List.cons_append, List.nil_append,
              Option.some.injEq] at h
            refine ⟨by rw [h1, hq, h], j, hjj.1, hj3, ?_⟩
            rw [← h]
            exact Or.inl ⟨hl, hr, rfl⟩
          · obtain ⟨_, i', _, _, hp'⟩ := ih (w.drop j) ss hrec
            have hsc : partsScore ss ≤ (w.drop j).length := by
              have hps := partsScore_le ss
              rwa [partsAt_flatten hp'] at hps
            rw [hrec] at h
            simp only [refineWith, if_neg (Nat.not_lt.mpr hsc),
              List.cons_append, List.nil_append, Option.some.injEq] at h
            refine ⟨by rw [h1, hq, h], j, hjj.1, hj3, ?_⟩
            rw [← h]
            exact Or.inl ⟨hl, hr, rfl⟩
        · rw [h1, hq] at h
          simp only [refineSplit] at h
          rcases hrec : trySplitAux rad n (w.drop j) with _ | ss
          · rw [hrec] at h
            simp only [refineWith, List.cons_append, List.nil_append,
              Option.some.injEq] at h
            refine ⟨by rw [h1, hq, h], j, hjj.1, hj3, ?_⟩
            rw [← h]
            exact Or.inr ⟨c, hlast, hcv, hl0, hr, rfl⟩
          · obtain ⟨_, i', _, _, hp'⟩ := ih (w.drop j) ss hrec
            have hsc : partsScore ss ≤ (w.drop j).length := by
              have hps := partsScore_le ss
              rwa [partsAt_flatten hp'] at hps
            rw [hrec] at h
            simp only [refineWith, if_neg (Nat.not_lt.mpr hsc),
              List.cons_append, List.nil_append, Option.some.injEq] at h
            refine ⟨by rw [h1, hq, h], j, hjj.1, hj3, ?_⟩
            rw [← h]
            exact Or.inr ⟨c, hlast, hcv, hl0, hr, rfl⟩

theorem try_split_some {rad : List Str} {w : Str} {ps : List Str}
    (h : try_split_compound rad w = some ps) :
    (splitScan rad w).1 = some ps
      ∧ ∃ i, 2 ≤ i ∧ i + 2 ≤ w.length ∧ PartsAt rad w i ps := by
  unfold try_split_compound at h
  exact trySplitAux_spec rad w.length w ps h

theorem try_split_flatten {rad : List Str} {w : Str} {ps : List Str}
    (h : try_split_compound rad w = some ps) : ps.flatten = w := by
  obtain ⟨_, i, _, _, hp⟩ := try_split_some h
  exact partsAt_flatten hp

theorem try_split_short {rad : List Str} {w : Str} (h : w.length < 4) :
    try_split_compound rad w = none := by
  unfold try_split_compound
  rcases hn : w.length with _ | n
  · simp [trySplitAux]
  · rw [trySplitAux]
    rw [if_pos h]

theorem trySplitAux_eq_base (rad : List Str) (n : Nat) (w : Str)
    (hlen : ¬ w.length < 4) (parts : List Str)
    (hb : (splitScan rad w).1 = some parts)
    (i : Nat) (hp : PartsAt rad w i parts) :
    trySplitAux rad (n + 1) w = some parts := by
  rw [trySplitAux, if_neg hlen]
  rcases hp with ⟨hl, hr, hq⟩ | ⟨c, hlast, hcv, hl0, hr, hq⟩
  · rw [hb, hq]
    simp only [refineSplit]
    rcases hrec : trySplitAux rad n (w.drop i) with _ | ss
    · simp [refineWith]
    · obtain ⟨_, i', _, _, hp'⟩ := trySplitAux_spec rad n (w.drop i) ss hrec
      have hsc : partsScore ss ≤ (w.drop i).length := by
        have hps := partsScore_le ss
        rwa [partsAt_flatten hp'] at hps
      simp only [refineWith]
      rw [if_neg (Nat.not_lt.mpr hsc)]
      simp
  · rw [hb, hq]
    simp only [refineSplit]
    rcases hrec : trySplitAux rad n (w.drop i) with _ | ss
    · simp [refineWith]
    · obtain ⟨_, i', _, _, hp'⟩ := trySplitAux_spec rad n (w.drop i) ss hrec
      have hsc : partsScore ss ≤ (w.drop i).length := by
        have hps := partsScore_le ss
        rwa [partsAt_flatten hp'] at hps
      simp only [refineWith]
      rw [if_neg (Nat.not_lt.mpr hsc)]
      simp

theorem try_split_exists {rad : List Str} {w : Str} {i : Nat} {q : List Str}
    (hi2 : 2 ≤ i) (hile : i + 2 ≤ w.length) (hq : PartsAt rad w i q) :
    ∃ ps, try_split_compound rad w = some ps ∧ scoreOf q ≤ scoreOf ps := by
  have hlen : ¬ w.length < 4 := by omega
  obtain ⟨hex, hmax⟩ := splitScan_inv rad w
  have hmem : i ∈ List.range' 2 (w.length - 3) :=
    List.mem_range'_1.mpr ⟨hi2, by omega⟩
  rcases hex with h0 | ⟨parts, h1, h2, j, hj, h3⟩
  · have hle := hmax i hmem q hq
    rw [h0] at hle
    have hpos := partsAt_pos hi2 hile hq
    simp at hle
    omega
  · obtain ⟨n, hn⟩ : ∃ n, w.length = n + 1 := ⟨w.length - 1, by omega⟩
    have heq : try_split_compound rad w = some parts := by
      unfold try_split_compound
      rw [hn]
      exact trySplitAux_eq_base rad n w hlen parts h1 j h3
    refine ⟨parts, heq, ?_⟩
    have hle := hmax i hmem q hq
    omega

theorem try_split_max {rad : List Str} {w : Str} {ps : List Str}
    (h : try_split_compound rad w = some ps) :
    ∀ i q, 2 ≤ i → i + 2 ≤ w.length → PartsAt rad w i q →
      scoreOf q ≤ scoreOf ps := by
  intro i q hi2 hile hq
  obtain ⟨hb, j, hj2, hj3, hpj⟩ := try_split_some h
  obtain ⟨hex, hmax⟩ := splitScan_inv rad w
  have hmem : i ∈ List.range' 2 (w.length - 3) :=
    List.mem_range'_1.mpr ⟨hi2, by omega⟩
  have hle := hmax i hmem q hq
  rcases hex with h0 | ⟨parts, h1, h2, j', hj', h3⟩
  · rw [h0] at hb
    simp at hb
  · rw [h1] at hb
    have hps : parts = ps := by
      injection hb
    rw [hps] at h2
    omega

/-! ## The candidate list: membership and the concatenation invariant -/

theorem affixCands_mem {rad : List Str} {po : Option Str} {tp : List Str}
    {rem : Str} {ts : List Str} {c : Cand}
    (h : c ∈ affixCands rad po tp rem ts) :
    ∃ k m, k ≤ tp.length ∧ m ≤ ts.length
      ∧ mkCand rad po tp rem ts k m = some c := by
  unfold affixCands at h
  rcases List.mem_flatMap.mp h with ⟨k, hk, h2⟩
  rcases List.mem_filterMap.mp h2 with ⟨m, hm, h3⟩
  exact ⟨k, m, Nat.lt_succ_iff.mp (List.mem_range.mp hk),
    Nat.lt_succ_iff.mp (List.mem_range.mp hm), h3⟩

theorem mkCand_mem {rad : List Str} {po : Option Str} {tp : List Str}
    {rem : Str} {ts : List Str} {k m : Nat} {c : Cand}
    (hk : k ≤ tp.length) (hm : m ≤ ts.length)
    (h : mkCand rad po tp rem ts k m = some c) :
    c ∈ affixCands rad po tp rem ts := by
  unfold affixCands
  refine List.mem_flatMap.mpr ⟨k, List.mem_range.mpr (Nat.lt_succ_iff.mpr hk), ?_⟩
  exact List.mem_filterMap.mpr ⟨m, List.mem_range.mpr (Nat.lt_succ_iff.mpr hm), h⟩

theorem mkCand_some {rad : List Str} {po : Option Str} {tp : List Str}
    {rem : Str} {ts : List Str} {k m : Nat} {c : Cand}
    (h : mkCand rad po tp rem ts k m = some c) :
    recRoot tp rem ts k m ∈ rad
    ∧ c = ⟨prepL po ++ tp.take (tp.length - k), [recRoot tp rem ts k m],
        ts.drop m, (recRoot tp rem ts k m).length,
        specialPenalty (recRoot tp rem ts k m)
          (prepL po ++ tp.take (tp.length - k)) (ts.drop m)⟩ := by
  unfold mkCand at h
  split at h
  · next hc =>
    refine ⟨hc, ?_⟩
    injection h with h
    exact h.symm
  · exact absurd h (by simp)

theorem affixCand_concat {rad : List Str} {w : Str} {c : Cand}
    (h : c ∈ affixCands rad (prepOf w) (tempPre w) (remFinal w) (tempSuf w)) :
    c.pre.flatten ++ (c.core.flatten ++ c.suf.flatten) = w := by
  obtain ⟨k, m, hk, hm, hmk⟩ := affixCands_mem h
  obtain ⟨hrad, hc⟩ := mkCand_some hmk
  rw [hc]
  unfold recRoot
  simp only [List.flatten_append, List.flatten_cons, List.flatten_nil,
    List.append_nil, List.append_assoc]
  rw [← List.flatten_append ((tempSuf w).take m) ((tempSuf w).drop m),
    List.take_append_drop m (tempSuf w)]
  rw [← List.append_assoc ((tempPre w).take ((tempPre w).length - k)).flatten
      ((tempPre w).drop ((tempPre w).length - k)).flatten
      (remFinal w ++ (tempSuf w).flatten)]
  rw [← List.flatten_append ((tempPre w).take ((tempPre w).length - k))
      ((tempPre w).drop ((tempPre w).length - k)),
    List.take_append_drop ((tempPre w).length - k) (tempPre w)]
  have hms := maxStrip_concat w
  simp only [List.append_assoc] at hms ⊢
  exact hms

theorem deconstructions_concat {rad : List Str} {w : Str} {c : Cand}
    (h : c ∈ deconstructions rad w) :
    c.pre.flatten ++ (c.core.flatten ++ c.suf.flatten) = w := by
  unfold deconstructions at h
  rcases List.mem_append.mp h with h1 | h2
  · rcases List.mem_append.mp h1 with ha | hb
    · exact affixCand_concat ha
    · rcases hsp : try_split_compound rad (remFinal w) with _ | parts
      · rw [hsp] at hb
        simp at hb
      · rw [hsp] at hb
        simp only [List.mem_singleton] at hb
        rw [hb]
        simp only [List.flatten_append, List.flatten_cons, List.flatten_nil,
          List.append_nil]
        rw [try_split_flatten hsp]
        have hms := maxStrip_concat w
        simp only [List.append_assoc] at hms ⊢
        exact hms
  · rcases hsp : try_split_compound rad w with _ | parts
    · rw [hsp] at h2
      simp at h2
    · rw [hsp] at h2
      simp only [List.mem_singleton] at h2
      rw [h2]
      simp only [List.flatten_nil, List.nil_append, List.append_nil]
      exact try_split_flatten hsp

/-- The output of `_strip_affixes2` always reassembles to its input. -/
theorem strip_affixes2_concat (rad : List Str) (w : Str) :
    (strip_affixes2 rad w).2.1.flatten
      ++ ((strip_affixes2 rad w).1.flatten
          ++ (strip_affixes2 rad w).2.2.flatten) = w := by
  unfold strip_affixes2
  rcases hp : pickBest (deconstructions rad w) with _ | b
  · simp only [List.flatten_append, List.flatten_cons, List.flatten_nil,
      List.append_nil]
    have hms := maxStrip_concat w
    simp only [List.append_assoc] at hms ⊢
    exact hms
  · exact deconstructions_concat (pickBest_mem hp)

/-! ## `core_word`: promotion and ending lemmas -/

theorem coreEmpty_flatten {c : List Str} (h : coreEmpty c = true) :
    c.flatten = [] := by
  match c with
  | [] => rfl
  | [x] =>
    simp only [coreEmpty] at h
    simp [List.isEmpty_iff.mp h]
  | x :: y :: t => simp [coreEmpty] at h

/-- The empty-core promotion moves a string between adjacent lists, so
the total concatenation is unchanged. -/
theorem promote_concat (p c s : List Str) :
    (promote_core p c s).1.flatten
      ++ ((promote_core p c s).2.1.flatten ++ (promote_core p c s).2.2.flatten)
    = p.flatten ++ (c.flatten ++ s.flatten) := by
  by_cases hc : coreEmpty c = true
  · have hcf := coreEmpty_flatten hc
    rcases s with _ | ⟨s0, rest⟩
    · rcases hl : p.getLast? with _ | q
      · simp [promote_core, hc, hl]
      · have hp : p.dropLast ++ [q] = p := List.dropLast_append_getLast? q hl
        simp only [promote_core, hc, if_true, hl]
        simp only [List.flatten_cons, List.flatten_nil, List.append_nil, hcf]
        rw [← hp, List.flatten_append]
        simp
    · simp [promote_core, hc, hcf]
  · simp [promote_core, hc]

theorem endingAfterVerbSuffix_cases (s0 : List Str) (e : Str) :
    endingAfterVerbSuffix s0 e = e ∨ endingAfterVerbSuffix s0 e = lit "i" := by
  rcases hl : s0.getLast? with _ | s
  · simp [endingAfterVerbSuffix, hl]
  · by_cases h : s ∈ VERB_SUFFIXES <;> simp [endingAfterVerbSuffix, hl, h]

theorem endingAfterVerbCore_cases (c0 : List Str) (e : Str) :
    endingAfterVerbCore c0 e = e ∨ endingAfterVerbCore c0 e = lit "i" := by
  match c0 with
  | [] => simp [endingAfterVerbCore]
  | [c] => by_cases h : c ∈ VERB_SUFFIXES <;> simp [endingAfterVerbCore, h]
  | x :: y :: t => simp [endingAfterVerbCore]

/-- Characterization of the inner `ne` branch: −1000 exactly for a
single remaining suffix `ig` or `ul`, +1000 exactly otherwise. -/
theorem nePenalty_eq (ss : List Str) :
    (nePenalty ss = -1000 ↔ ∃ x, ss = [x] ∧ (x = lit "ig" ∨ x = lit "ul"))
    ∧ (nePenalty ss = 1000
        ↔ ¬ ∃ x, ss = [x] ∧ (x = lit "ig" ∨ x = lit "ul")) := by
  match ss with
  | [] =>
    have he : nePenalty [] = 1000 := rfl
    constructor
    · constructor
      · intro h1
        rw [he] at h1
        exact absurd h1 (by decide)
      · rintro ⟨x', hx', _⟩
        exact absurd hx' (by simp)
    · constructor
      · rintro _ ⟨x', hx', _⟩
        exact absurd hx' (by simp)
      · intro _
        exact he
  | [x] =>
    by_cases hx : x = lit "ig" ∨ x = lit "ul"
    · have he : nePenalty [x] = -1000 := by
        simp only [nePenalty]
        rw [if_pos hx]
      constructor
      · exact ⟨fun _ => ⟨x, rfl, hx⟩, fun _ => he⟩
      · constructor
        · intro h1
          rw [he] at h1
          exact absurd h1 (by decide)
        · intro hn
          exact absurd ⟨x, rfl, hx⟩ hn
    · have he : nePenalty [x] = 1000 := by
        simp only [nePenalty]
        rw [if_neg hx]
      have hnex : ¬ ∃ x', ([x] : List Str) = [x']
          ∧ (x' = lit "ig" ∨ x' = lit "ul") := by
        rintro ⟨x', hx', hin⟩
        have hxx : x = x' := by
          injection hx' with h1 h2
        rw [hxx] at hx
        exact absurd hin hx
      constructor
      · constructor
        · intro h1
          rw [he] at h1
          exact absurd h1 (by decide)
        · intro hex
          exact absurd hex hnex
      · exact ⟨fun _ => hnex, fun _ => he⟩
  | x :: y :: rest =>
    have he : nePenalty (x :: y :: rest) = 1000 := rfl
    have hnex : ¬ ∃ x', (x :: y :: rest : List Str) = [x']
        ∧ (x' = lit "ig" ∨ x' = lit "ul") := by
      rintro ⟨x', hx', _⟩
      simp at hx'
    constructor
    · constructor
      · intro h1
        rw [he] at h1
        exact absurd h1 (by decide)
      · intro hex
        exact absurd hex hnex
    · exact ⟨fun _ => hnex, fun _ => he⟩

/-! ## The claims -/

/-- C1 (amended): concatenating the Analyzed Word's prefixes, core
elements and suffixes reproduces the stem of the normalized token (the
normalized form with its split-off ending vowel removed), and the
returned ending is either that split-off vowel or the infinitive marker
`i` (forced by the verb-suffix override).  The claim's stronger form —
that prefixes + core + suffixes + ending equals the whole normalized
form — fails exactly when the override fires. -/
theorem claim_C1 (rad : List Str) (word : Str) :
    (core_word rad word).prefixes.flatten
      ++ ((core_word rad word).core.flatten
        ++ (core_word rad word).suffixes.flatten)
      = (normStem word).1
    ∧ ((core_word rad word).preferred_ending = (normStem word).2
        ∨ (core_word rad word).preferred_ending = lit "i") := by
  constructor
  · simp only [core_word]
    rw [promote_concat]
    exact strip_affixes2_concat rad (normStem word).1
  · rcases endingAfterVerbCore_cases (strip_affixes2 rad (normStem word).1).1
        (endingAfterVerbSuffix (strip_affixes2 rad (normStem word).1).2.2
          (normStem word).2) with h2 | h2
    · rcases endingAfterVerbSuffix_cases
          (strip_affixes2 rad (normStem word).1).2.2 (normStem word).2
        with h1 | h1
      · refine Or.inl ?_
        simp only [core_word]
        rw [h2, h1]
      · refine Or.inr ?_
        simp only [core_word]
        rw [h2, h1]
    · refine Or.inr ?_
      simp only [core_word]
      rw [h2]

/-- C1 counterexample: on the token `parolanta` with a dictionary
containing the root `parol`, the verb-suffix override rewrites the
ending to `i`, so prefixes + core + suffixes + ending is `parolanti`,
which differs from the normalized form `parolanta`. -/
theorem claim_C1_counterexample :
    normStem (lit "parolanta") = (lit "parolant", lit "a")
    ∧ core_word [lit "parol"] (lit "parolanta")
      = ⟨lit "parolanta", [], [lit "parol"], [lit "ant"], lit "i"⟩
    ∧ (core_word [lit "parol"] (lit "parolanta")).prefixes.flatten
        ++ ((core_word [lit "parol"] (lit "parolanta")).core.flatten
          ++ ((core_word [lit "parol"] (lit "parolanta")).suffixes.flatten
            ++ (core_word [lit "parol"] (lit "parolanta")).preferred_ending))
      ≠ replace_verb_ending (maybe_strip_plural_acc_ending
          (lowerStr (lit "parolanta"))) :=
  ⟨by decide, by decide, by decide⟩

/-- C2: whenever the collected candidate list is non-empty, the
disambiguator returns the fields of a candidate that is lexicographically
best under the order (lowest penalty, then longest validated root length,
then most affixes separated out): no collected candidate has a strictly
greater sort key. -/
theorem claim_C2 (rad : List Str) (w : Str)
    (hne : deconstructions rad w ≠ []) :
    ∃ b, pickBest (deconstructions rad w) = some b
      ∧ b ∈ deconstructions rad w
      ∧ (∀ c ∈ deconstructions rad w, keyGt (candKey c) (candKey b) = false)
      ∧ strip_affixes2 rad w = (b.core, b.pre, b.suf) := by
  obtain ⟨b, hb⟩ := pickBest_isSome hne
  refine ⟨b, hb, pickBest_mem hb, pickBest_max hb, ?_⟩
  unfold strip_affixes2
  rw [hb]

/-- Witness for C2 at the stem `parolant` with dictionary `[parol]`. -/
theorem claim_C2_witness :
    ∃ b, pickBest (deconstructions [lit "parol"] (lit "parolant")) = some b
      ∧ b ∈ deconstructions [lit "parol"] (lit "parolant")
      ∧ (∀ c ∈ deconstructions [lit "parol"] (lit "parolant"),
          keyGt (candKey c) (candKey b) = false)
      ∧ strip_affixes2 [lit "parol"] (lit "parolant")
          = (b.core, b.pre, b.suf) :=
  claim_C2 [lit "parol"] (lit "parolant") (by decide)

/-- C3: a candidate with root `ne` and a non-empty remaining suffix list
gets the −1000 boost exactly when that list is a single suffix `ig` or
`ul`, and the +1000 penalty exactly otherwise; consequently, with `ne`,
`ig`, `ul`, `ind` in the dictionary, `neig` is analyzed as core `ne` with
suffix `ig` and `neind` as prefix `ne` with core `ind`. -/
theorem claim_C3 :
    (∀ sp ss : List Str, ss ≠ [] →
      (specialPenalty (lit "ne") sp ss = -1000
          ↔ ∃ x, ss = [x] ∧ (x = lit "ig" ∨ x = lit "ul"))
      ∧ (specialPenalty (lit "ne") sp ss = 1000
          ↔ ¬ ∃ x, ss = [x] ∧ (x = lit "ig" ∨ x = lit "ul")))
    ∧ core_word [lit "ne", lit "ig", lit "ul", lit "ind"] (lit "neig")
      = ⟨lit "neig", [], [lit "ne"], [lit "ig"], lit "i"⟩
    ∧ core_word [lit "ne", lit "ig", lit "ul", lit "ind"] (lit "neind")
      = ⟨lit "neind", [lit "ne"], [lit "ind"], [], lit "i"⟩ := by
  refine ⟨?_, by decide, by decide⟩
  intro sp ss hne
  have houter : ¬ ((lit "ne" = lit "ig" ∨ lit "ne" = lit "ul")
      ∧ lit "ne" ∈ sp) := by
    rintro ⟨h1 | h1, _⟩
    · exact absurd h1 (by decide)
    · exact absurd h1 (by decide)
  unfold specialPenalty
  rw [if_neg houter, if_pos ⟨rfl, hne⟩]
  exact nePenalty_eq ss

/-- Witness for C3's penalty characterization at the suffix lists `[ig]`
and `[it]`. -/
theorem claim_C3_witness :
    (specialPenalty (lit "ne") [] [lit "ig"] = -1000
        ↔ ∃ x, ([lit "ig"] : List Str) = [x] ∧ (x = lit "ig" ∨ x = lit "ul"))
    ∧ (specialPenalty (lit "ne") [] [lit "it"] = 1000
        ↔ ¬ ∃ x, ([lit "it"] : List Str) = [x]
            ∧ (x = lit "ig" ∨ x = lit "ul")) :=
  ⟨(claim_C3.1 [] [lit "ig"] (by decide)).1,
   (claim_C3.1 [] [lit "it"] (by decide)).2⟩

/-- C4 (amended): the validity test of the reconstruction search in
`_strip_affixes2` accepts a reconstructed candidate if and only if it is
in the Root Dictionary; the curated exception set and the particle set
are not consulted there, so every accepted candidate root is a dictionary
entry. -/
theorem claim_C4 (rad : List Str) (po : Option Str) (tp : List Str)
    (rem : Str) (ts : List Str) :
    (∀ k m, ((∃ c, mkCand rad po tp rem ts k m = some c)
        ↔ recRoot tp rem ts k m ∈ rad))
    ∧ ∀ c ∈ affixCands rad po tp rem ts, c.core.flatten ∈ rad := by
  constructor
  · intro k m
    constructor
    · rintro ⟨c, hc⟩
      exact (mkCand_some hc).1
    · intro hr
      unfold mkCand
      rw [if_pos hr]
      exact ⟨_, rfl⟩
  · intro c hc
    obtain ⟨k, m, _, _, hmk⟩ := affixCands_mem hc
    obtain ⟨hr, hceq⟩ := mkCand_some hmk
    rw [hceq]
    simpa using hr

/-- Witness for C4 at the stem `parol` with dictionary `[parol]`. -/
theorem claim_C4_witness :
    ((∃ c, mkCand [lit "parol"] none [] (lit "parol") [] 0 0 = some c)
      ↔ recRoot [] (lit "parol") [] 0 0 ∈ [lit "parol"])
    ∧ (⟨[], [lit "parol"], [], 5, 0⟩ : Cand).core.flatten ∈ [lit "parol"] :=
  ⟨(claim_C4 [lit "parol"] none [] (lit "parol") []).1 0 0,
   (claim_C4 [lit "parol"] none [] (lit "parol") []).2 _ (by decide)⟩

/-- C4 counterexample: with an empty dictionary, the reconstruction
search on the stem `studjar` tests the candidate string `studjar`
(giveback combination k = 0, m = 1), which is in `CORE_IMMUNE_CORES`,
yet rejects it: the validity test at `eostem.py:281` consults only
`rad_dict`, so the word is left over-stripped as `studj + ar`. -/
theorem claim_C4_counterexample :
    lit "studjar" ∈ CORE_IMMUNE_CORES
    ∧ prepOf (lit "studjar") = none
    ∧ tempPre (lit "studjar") = []
    ∧ remFinal (lit "studjar") = lit "studj"
    ∧ tempSuf (lit "studjar") = [lit "ar"]
    ∧ recRoot [] (lit "studj") [lit "ar"] 0 1 = lit "studjar"
    ∧ mkCand [] none [] (lit "studj") [lit "ar"] 0 1 = none
    ∧ strip_affixes2 [] (lit "studjar") = ([lit "studj"], [], [lit "ar"]) :=
  ⟨by decide, by decide, by decide, by decide, by decide, by decide,
   by decide, by decide⟩

/-- C5 (code bug): on the stem `dezert` with a dictionary containing
`dezert` but not `zert`, no giveback combination validates
(`deconstructions` is empty), yet the returned segmentation still strips
the preposition `de`: the fallback of `_strip_affixes2` keeps the
preposition removed, contradicting the spec and the repository's own test
`test_dezert_not_split_as_preposition`, which expects
`(["dezert"], [], [])`. -/
theorem claim_C5 :
    deconstructions [lit "dezert"] (lit "dezert") = []
    ∧ strip_affixes2 [lit "dezert"] (lit "dezert")
      = ([lit "zert"], [lit "de"], [])
    ∧ lit "de" ∈ PREPOSITIONS
    ∧ lit "dezert" ∈ [lit "dezert"] :=
  ⟨by decide, by decide, by decide, by decide⟩

/-- C6 (amended): every closed-class particle passes the ending
normalization stage unchanged — no plural/accusative stripping, no
verb-ending rewriting, no final-vowel split.  (Affix stripping in
`_strip_affixes2`, however, has no particle immunity: see the
counterexample.) -/
theorem claim_C6 (w : Str) (h : w ∈ VORTETOJ) :
    maybe_strip_plural_acc_ending w = w
    ∧ replace_verb_ending w = w
    ∧ split_ending w = (w, []) := by
  refine ⟨?_, ?_, ?_⟩
  · by_cases him : w ∈ STRIP_PLURAL_ACC_IMMUNE_WORDS
    · simp [maybe_strip_plural_acc_ending, him]
    · have hnj : endsNJ w = false := by
        rw [Bool.eq_false_iff]
        intro hp
        exact him (List.mem_filter.mpr ⟨h, hp⟩)
      simp only [endsNJ, Bool.or_eq_false_iff] at hnj
      have hjn : (lit "jn").isSuffixOf w = false := by
        rw [Bool.eq_false_iff]
        intro hp
        have h1 : (lit "n") <:+ (lit "jn") := ⟨lit "j", rfl⟩
        have h2 : (lit "jn") <:+ w := List.isSuffixOf_iff_suffix.mp hp
        have h3 : (lit "n").isSuffixOf w :=
          List.isSuffixOf_iff_suffix.mpr (h1.trans h2)
        rw [hnj.1] at h3
        exact Bool.false_ne_true h3
      simp [maybe_strip_plural_acc_ending, him, hjn, hnj.1, hnj.2]
  · by_cases him : w ∈ CORE_IMMUNE_WORDS
    · simp [replace_verb_ending, him]
    · have hvt : endsVowelOrTense w = false := by
        rw [Bool.eq_false_iff]
        intro hp
        exact him (List.mem_filter.mpr ⟨h, hp⟩)
      simp only [endsVowelOrTense, Bool.or_eq_false_iff] at hvt
      simp only [Bool.eq_false_iff, ne_eq, List.isSuffixOf_iff_suffix] at hvt
      simp [replace_verb_ending, him, hvt.1.1.1.1.2, hvt.1.1.1.2, hvt.1.1.2,
        hvt.1.2, hvt.2]
  · rcases hl : w.getLast? with _ | c
    · simp [split_ending, hl]
    · simp [split_ending, hl, h]

/-- Witness for C6 at the article `la`. -/
theorem claim_C6_witness :
    maybe_strip_plural_acc_ending (lit "la") = lit "la"
    ∧ replace_verb_ending (lit "la") = lit "la"
    ∧ split_ending (lit "la") = (lit "la", []) :=
  claim_C6 (lit "la") (by decide)

/-- C6 counterexample: the conjunction `nek` is a closed-class particle,
yet with an empty dictionary `core_word` strips it into prefix `ne` and
core `k` — affix stripping is not particle-immune, and the resulting core
element of `neig` is the affix string `ne` without being the entire
word. -/
theorem claim_C6_counterexample :
    lit "nek" ∈ VORTETOJ
    ∧ core_word [] (lit "nek")
      = ⟨lit "nek", [lit "ne"], [lit "k"], [], lit ""⟩
    ∧ lit "ne" ∈ PREFIXES
    ∧ (core_word [lit "ne", lit "ig", lit "ul", lit "ind"] (lit "neig")).core
      = [lit "ne"]
    ∧ lit "neig" ≠ lit "ne" :=
  ⟨by decide, by decide, by decide, by decide, by decide⟩

/-- C7: the compound splitter returns no split for words shorter than 4
characters; when it returns a split, that split is one of the splits
tested by the loop (a valid split), and its score — total validated-root
length excluding the linking vowel — is maximal among all valid splits at
all tested split points; and whenever some valid split exists (for a word
of length at least 4), a split is returned. -/
theorem claim_C7 (rad : List Str) (w : Str) :
    (w.length < 4 → try_split_compound rad w = none)
    ∧ (∀ ps, try_split_compound rad w = some ps →
        (∃ i, 2 ≤ i ∧ i + 2 ≤ w.length ∧ PartsAt rad w i ps)
        ∧ ∀ i q, 2 ≤ i → i + 2 ≤ w.length → PartsAt rad w i q →
            scoreOf q ≤ scoreOf ps)
    ∧ (∀ i q, 2 ≤ i → i + 2 ≤ w.length → PartsAt rad w i q →
        ∃ ps, try_split_compound rad w = some ps ∧ scoreOf q ≤ scoreOf ps) := by
  refine ⟨fun h => try_split_short h, fun ps h => ⟨?_, try_split_max h⟩,
    fun i q h2 hle hq => try_split_exists h2 hle hq⟩
  obtain ⟨_, i, hi2, hile, hp⟩ := try_split_some h
  exact ⟨i, hi2, hile, hp⟩

/-- Witness for C7 at the compound `bluokul` with dictionary
`[blu, okul]`. -/
theorem claim_C7_witness :
    ∃ ps, try_split_compound [lit "blu", lit "okul"] (lit "bluokul")
        = some ps
      ∧ scoreOf [lit "blu", lit "okul"] ≤ scoreOf ps :=
  (claim_C7 [lit "blu", lit "okul"] (lit "bluokul")).2.2 3
    [lit "blu", lit "okul"] (by decide) (by decide) (Or.inl (by decide))

/-- C8 (code bug): the entry guard of `get_gloss` evaluates
`word[0].isalpha()` before anything else, so the empty string raises an
uncaught `IndexError` instead of being short-circuited; a token whose
first character is not a letter is returned as the pass-through
near-empty analysis without further processing. -/
theorem claim_C8 :
    get_gloss_entry (lit "") = GlossOutcome.raised
    ∧ get_gloss_entry (lit "3a") = GlossOutcome.passThrough (lit "3a")
    ∧ get_gloss_entry (lit "vorto") = GlossOutcome.analyzed (lit "vorto") :=
  ⟨by decide, by decide, by decide⟩

/-- C9 (amended): when the disambiguator leaves an empty core, the
assembler promotes the first remaining suffix when any suffix remains,
and otherwise the last (innermost) remaining prefix — not the outermost
one as the claim states — removing it from its list. -/
theorem claim_C9 (pr c : List Str) (s0 q : Str) (ss qs : List Str)
    (hc : coreEmpty c = true) :
    promote_core pr c (s0 :: ss) = (pr, [s0], ss)
    ∧ promote_core (qs ++ [q]) c [] = (qs, [q], []) := by
  constructor
  · simp [promote_core, hc]
  · simp [promote_core, hc, List.getLast?_concat, List.dropLast_concat]

/-- Witness for C9's promotion rules at concrete lists. -/
theorem claim_C9_witness :
    promote_core [lit "ne", lit "ek"] [lit ""] (lit "ig" :: [])
      = ([lit "ne", lit "ek"], [lit "ig"], [])
    ∧ promote_core ([lit "ne"] ++ [lit "ek"]) [lit ""] []
      = ([lit "ne"], [lit "ek"], []) :=
  claim_C9 [lit "ne", lit "ek"] [lit ""] (lit "ig") (lit "ek") []
    [lit "ne"] (by decide)

/-- C9 counterexample: on `neek` with an empty dictionary the stripping
leaves prefixes `[ne, ek]` and an empty core; the code promotes the last
prefix `ek` (prefixes become `[ne]`), whereas promoting the outermost
prefix would give core `ne` and prefixes `[ek]`. -/
theorem claim_C9_counterexample :
    prepOf (lit "neek") = none
    ∧ tempPre (lit "neek") = [lit "ne", lit "ek"]
    ∧ remFinal (lit "neek") = []
    ∧ tempSuf (lit "neek") = []
    ∧ core_word [] (lit "neek")
      = ⟨lit "neek", [lit "ne"], [lit "ek"], [], lit ""⟩ :=
  ⟨by decide, by decide, by decide, by decide, by decide⟩

/-- C10: every split the compound splitter returns has exactly two root
segments — `[left, right]` or `[left, vowel, right]` — and its parts
concatenate to the input; the recursive-refinement branch never extends a
split, because a sub-split's counted root length can never exceed the
length of the segment it partitions. -/
theorem claim_C10 (rad : List Str) (w : Str) (ps : List Str)
    (h : try_split_compound rad w = some ps) :
    ps.flatten = w
    ∧ ((∃ l r, ps = [l, r]) ∨ (∃ l c r, ps = [l, [c], r]))
    ∧ ∀ ss : List Str, ss.flatten = w → partsScore ss ≤ w.length := by
  obtain ⟨_, i, hi2, hile, hp⟩ := try_split_some h
  refine ⟨partsAt_flatten hp, ?_, ?_⟩
  · rcases hp with ⟨_, _, hq⟩ | ⟨c, _, _, _, _, hq⟩
    · exact Or.inl ⟨_, _, hq⟩
    · exact Or.inr ⟨_, c, _, hq⟩
  · intro ss hss
    have hle := partsScore_le ss
    rw [hss] at hle
    exact hle

/-- Witness for C10 at the compound `bluokul`. -/
theorem claim_C10_witness :
    ([lit "blu", lit "okul"] : List Str).flatten = lit "bluokul"
    ∧ ((∃ l r, ([lit "blu", lit "okul"] : List Str) = [l, r])
        ∨ (∃ l c r, ([lit "blu", lit "okul"] : List Str) = [l, [c], r]))
    ∧ ∀ ss : List Str, ss.flatten = lit "bluokul"
        → partsScore ss ≤ (lit "bluokul").length :=
  claim_C10 [lit "blu", lit "okul"] (lit "bluokul") [lit "blu", lit "okul"]
    (by decide)

end Glosilo
